import Mathlib

/-!
# jupiter-go: response normalisation and the three API calls

A shallow embedding of `cmd/main.go`.

* Byte strings (Go `string` / `[]byte`) are lists of byte values.
* `ReplaceAll` is Go's `strings.ReplaceAll` for a non-empty pattern: a left-to-right scan that
  rewrites the leftmost match and resumes after it (non-overlapping matches).
* `normalizeEnumValues` is the six-pass rewrite of `main.go`, lines 44-61.
* `GetPrice`, `GetQuote` and `GetTokenInfo` are the three client methods from the point where the
  HTTP exchange has produced its outcome; the schema decoder (`protojson.Unmarshal`) and the
  permissive decoder (`json.Unmarshal`) are arbitrary functions, and console output and decoder
  invocations are recorded in an effect trace.
-/

namespace JupiterGo

/-! ## Byte strings -/

/-- A byte value. Go bytes range over `0..255`; every function below is stated for lists of
naturals, which include all byte sequences. -/
abbrev Byte := Nat

/-- UTF-8 encoding of one code point, as Go stores string literals. -/
def utf8EncodeChar (c : Char) : List Byte :=
  let n := c.toNat
  if n < 0x80 then [n]
  else if n < 0x800 then [0xC0 + n / 64, 0x80 + n % 64]
  else if n < 0x10000 then [0xE0 + n / 4096, 0x80 + n / 64 % 64, 0x80 + n % 64]
  else [0xF0 + n / 262144, 0x80 + n / 4096 % 64, 0x80 + n / 64 % 64, 0x80 + n % 64]

/-- UTF-8 encoding of a list of code points. -/
def encode : List Char → List Byte
  | [] => []
  | c :: cs => utf8EncodeChar c ++ encode cs

/-- The bytes of a string literal (Go `[]byte("...")`). -/
def bytes (s : String) : List Byte := encode s.toList

/-! ## `strings.ReplaceAll` -/

/-- The scan behind `strings.ReplaceAll`: `skip` counts the bytes of the current match that are
still to be consumed. At a position where `old` matches, `new` is emitted and the scan resumes
after the match; elsewhere the byte is copied. -/
def replaceFrom (old new : List Byte) : Nat → List Byte → List Byte
  | _, [] => []
  | skip + 1, _ :: s => replaceFrom old new skip s
  | 0, c :: s =>
    if old.isPrefixOf (c :: s) then new ++ replaceFrom old new (old.length - 1) s
    else c :: replaceFrom old new 0 s

/-- Go's `strings.ReplaceAll(s, old, new)` for a non-empty `old` (the standard library function,
called six times by `normalizeEnumValues`, always with a non-empty literal): every leftmost,
non-overlapping occurrence of `old` in `s` is replaced by `new`. -/
def ReplaceAll (s old new : List Byte) : List Byte := replaceFrom old new 0 s

/-! ## The normaliser (`main.go`, lines 44-61) -/

/-- The function `normalizeEnumValues` fixes enum values to match protobuf expectations. -/
def normalizeEnumValues (jsonData : List Byte) : List Byte :=
  let jsonStr := jsonData
  -- Fix confidence level enum values
  let jsonStr := ReplaceAll jsonStr (bytes "\"confidenceLevel\":\"high\"")
    (bytes "\"confidenceLevel\":\"CONFIDENCE_LEVEL_HIGH\"")
  let jsonStr := ReplaceAll jsonStr (bytes "\"confidenceLevel\":\"medium\"")
    (bytes "\"confidenceLevel\":\"CONFIDENCE_LEVEL_MEDIUM\"")
  let jsonStr := ReplaceAll jsonStr (bytes "\"confidenceLevel\":\"low\"")
    (bytes "\"confidenceLevel\":\"CONFIDENCE_LEVEL_LOW\"")
  -- Fix swap mode enum values
  let jsonStr := ReplaceAll jsonStr (bytes "\"swapMode\":\"ExactIn\"")
    (bytes "\"swapMode\":\"SWAP_MODE_EXACTIN\"")
  let jsonStr := ReplaceAll jsonStr (bytes "\"swapMode\":\"ExactOut\"")
    (bytes "\"swapMode\":\"SWAP_MODE_EXACTOUT\"")
  -- Handle null values that cause parsing issues
  let jsonStr := ReplaceAll jsonStr (bytes ":null") (bytes ":\"\"")
  jsonStr

/-! Names for the twelve literals of `normalizeEnumValues`. -/

/-- The text `"confidenceLevel":"high"`. -/
def srcHigh : List Byte := bytes "\"confidenceLevel\":\"high\""
/-- The text `"confidenceLevel":"CONFIDENCE_LEVEL_HIGH"`. -/
def dstHigh : List Byte := bytes "\"confidenceLevel\":\"CONFIDENCE_LEVEL_HIGH\""
/-- The text `"confidenceLevel":"medium"`. -/
def srcMedium : List Byte := bytes "\"confidenceLevel\":\"medium\""
/-- The text `"confidenceLevel":"CONFIDENCE_LEVEL_MEDIUM"`. -/
def dstMedium : List Byte := bytes "\"confidenceLevel\":\"CONFIDENCE_LEVEL_MEDIUM\""
/-- The text `"confidenceLevel":"low"`. -/
def srcLow : List Byte := bytes "\"confidenceLevel\":\"low\""
/-- The text `"confidenceLevel":"CONFIDENCE_LEVEL_LOW"`. -/
def dstLow : List Byte := bytes "\"confidenceLevel\":\"CONFIDENCE_LEVEL_LOW\""
/-- The text `"swapMode":"ExactIn"`. -/
def srcExactIn : List Byte := bytes "\"swapMode\":\"ExactIn\""
/-- The text `"swapMode":"SWAP_MODE_EXACTIN"`. -/
def dstExactIn : List Byte := bytes "\"swapMode\":\"SWAP_MODE_EXACTIN\""
/-- The text `"swapMode":"ExactOut"`. -/
def srcExactOut : List Byte := bytes "\"swapMode\":\"ExactOut\""
/-- The text `"swapMode":"SWAP_MODE_EXACTOUT"`. -/
def dstExactOut : List Byte := bytes "\"swapMode\":\"SWAP_MODE_EXACTOUT\""
/-- The text `:null`. -/
def srcNull : List Byte := bytes ":null"
/-- The text `:""`. -/
def dstNull : List Byte := bytes ":\"\""

/-- The five enum source texts, in the order of their passes. -/
def enumSources : List (List Byte) := [srcHigh, srcMedium, srcLow, srcExactIn, srcExactOut]

/-- A sequence of substitution passes `(old, new)`, run left to right. -/
def runPasses (passes : List (List Byte × List Byte)) (s : List Byte) : List Byte :=
  passes.foldl (fun acc p => ReplaceAll acc p.1 p.2) s

/-! ## Overlap checks

Computable side conditions on concrete patterns. They express that one word can meet the matches
of a pass only in ways the pass leaves intact, and are evaluated on the literals of the program. -/

/-- Every non-empty suffix `v` of `w` neither starts with `R` nor is a prefix of `R` without being
a prefix of `P`: reading `w` at the front of the output of a `P ↦ R` pass, every byte of `w` is
also at the front of the input. -/
def prefOK (P R : List Byte) : List Byte → Bool
  | [] => true
  | c :: w =>
    !(R.isPrefixOf (c :: w)) && (!((c :: w).isPrefixOf R) || (c :: w).isPrefixOf P)
      && prefOK P R w

/-- The check for `no_create`: an occurrence of `Q` in the output of a `P ↦ R` pass that starts
inside a replacement forces an occurrence of a word of `F` in the input, and one that starts at
a copied byte is an occurrence of `Q` in the input (`Q` is `P` itself or a word of `F`). -/
def createOK (P R Q : List Byte) (F : List (List Byte)) : Bool :=
  decide (Q = P ∨ Q ∈ F) && prefOK P R Q.tail &&
    (List.range R.length).all fun i =>
      !(Q.isPrefixOf (R.drop i)) &&
        (!((R.drop i).isPrefixOf Q) ||
          F.any fun z => decide (z <:+: P ++ Q.drop (R.length - i)))

/-- The check for `preserve`: an occurrence of `Q` in the input of a `P ↦ R` pass that starts
inside a match is still an occurrence after the match has been rewritten. -/
def keepOK (P R Q : List Byte) : Bool :=
  prefOK R P Q.tail &&
    (List.range P.length).all fun i =>
      !(Q.isPrefixOf (P.drop i)) &&
        (!((P.drop i).isPrefixOf Q) || decide (Q <:+: R ++ Q.drop (P.length - i)))

/-- No pass of the sequence can create the word `Q`. -/
def stableOK (passes : List (List Byte × List Byte)) (Q : List Byte) : Bool :=
  passes.all fun p => decide (p.1 ≠ []) && createOK p.1 p.2 Q [Q]

/-- No pass of the sequence can destroy the word `Q`. -/
def keepAllOK (passes : List (List Byte × List Byte)) (Q : List Byte) : Bool :=
  passes.all fun p => decide (p.1 ≠ []) && keepOK p.1 p.2 Q

/-- The check for `rewrite_keeps`: `Q` starts with `P`, every way in which `Q` can start inside
a match of `P` leaves `w` right after that match, `w` is read unchanged through the pass, and
`Q2` occurs in `R ++ w`. -/
def rewriteOK (P R Q w Q2 : List Byte) : Bool :=
  prefOK R P w && decide (Q2 <:+: R ++ w) && P.isPrefixOf Q &&
    (List.range P.length).all fun i =>
      !(Q.isPrefixOf (P.drop i)) &&
        (!((P.drop i).isPrefixOf Q) || w.isPrefixOf (Q.drop (P.length - i)))

/-- No pass of the sequence shortens its input: every pattern is non-empty and no longer than
its replacement. -/
def growOK (passes : List (List Byte × List Byte)) : Bool :=
  passes.all fun p => decide (p.1 ≠ []) && decide (p.1.length ≤ p.2.length)

/-! ## The client methods (`main.go`, lines 63-230) -/

/-- A Go `error`: a failure reported by a callee, or `fmt.Errorf("<context>: %w", cause)`. -/
inductive GoError
  | failure (msg : String)
  | wrapped (context : String) (cause : GoError)
  deriving DecidableEq

/-- The outcome of the transport stages shared by the three methods: building the request
(`http.NewRequestWithContext`), sending it (`httpClient.Do`) and reading the body
(`io.ReadAll`). Query-string assembly only selects which exchange takes place. -/
inductive Exchange
  | newRequestFailed (err : GoError)
  | doFailed (err : GoError)
  | readAllFailed (err : GoError)
  | received (StatusCode : Int) (body : List Byte)
  deriving DecidableEq

/-- A value stored in the `map[string]interface{}` filled by `json.Unmarshal`; only the dynamic
types the program tests for are told apart. A `float64` is carried as its bit pattern. -/
inductive JsonValue
  | string (s : String)
  | float64 (bits : Nat)
  | other
  deriving DecidableEq

/-- The `map[string]interface{}` filled by `json.Unmarshal`, as its key/value entries. -/
abbrev JsonMap := List (String × JsonValue)

/-- The type assertion `m[key].(string)`. -/
def JsonMap.getString (m : JsonMap) (key : String) : Option String :=
  match m.lookup key with
  | some (JsonValue.string s) => some s
  | _ => none

/-- The type assertion `m[key].(float64)`. -/
def JsonMap.getFloat64 (m : JsonMap) (key : String) : Option Nat :=
  match m.lookup key with
  | some (JsonValue.float64 b) => some b
  | _ => none

/-- An argument of `fmt.Printf`. -/
inductive PrintArg
  | str (s : String)
  | float64 (bits : Nat)
  | rawData (m : JsonMap)
  deriving DecidableEq

/-- An observable effect of a client method after the body has been read. -/
inductive Event
  | protojsonUnmarshal (data : List Byte)
  | jsonUnmarshal (data : List Byte)
  | printf (format : String) (args : List PrintArg)
  deriving DecidableEq

/-- The inputs on which the schema decoder `protojson.Unmarshal` was invoked, in order. -/
def decoderCalls : List Event → List (List Byte)
  | [] => []
  | Event.protojsonUnmarshal data :: es => data :: decoderCalls es
  | _ :: es => decoderCalls es

/-- What a client method hands back: the two Go return values (`none` for `nil`) and the effects
it performed. -/
structure Call (α : Type) where
  response : Option α
  err : Option GoError
  effects : List Event

/-- Modelled from the spec: the generated oneof `RootGetResponse.Response` of the price service
(package `price/services`, not among the sources), with the two wrappers `main.go` builds. The
payload of `Empty_400` is a pointer that `main.go` leaves `nil`. -/
inductive RootGetResponse_Response (PriceResponse : Type)
  | PriceResponse_200 (PriceResponse_200 : PriceResponse)
  | Empty_400 (Empty_400 : Option Unit)

/-- Modelled from the spec: the generated message `RootGetResponse`; `Response` is `nil` until a
variant is stored. -/
structure RootGetResponse (PriceResponse : Type) where
  Response : Option (RootGetResponse_Response PriceResponse)

/-- Modelled from the spec: the generated oneof `QuoteGetResponse.Response` of the swap service,
with the one wrapper `main.go` builds. -/
inductive QuoteGetResponse_Response (QuoteResponse : Type)
  | QuoteResponse_200 (QuoteResponse_200 : QuoteResponse)

/-- Modelled from the spec: the generated message `QuoteGetResponse`. -/
structure QuoteGetResponse (QuoteResponse : Type) where
  Response : Option (QuoteGetResponse_Response QuoteResponse)

/-- Modelled from the spec: the generated message `TokenAddressGetResponse` of the token service;
`main.go` only ever builds its zero value, in which no variant is stored. -/
structure TokenAddressGetResponse (Variant : Type) where
  Response : Option Variant

/-- The diagnostic of the decode-failure path: the raw body is parsed permissively and, when
that succeeds, printed. -/
def debugRawJson (jsonUnmarshal : List Byte → Except GoError JsonMap) (body : List Byte) :
    List Event :=
  Event.jsonUnmarshal body ::
    match jsonUnmarshal body with
    | Except.ok rawData => [Event.printf "Raw JSON response: %+v\n" [PrintArg.rawData rawData]]
    | Except.error _ => []

/-- The method `GetPrice` fetches token prices using the Price API (lines 63-119). -/
def GetPrice {PriceResponse : Type}
    (protojsonUnmarshal : List Byte → Except GoError PriceResponse)
    (jsonUnmarshal : List Byte → Except GoError JsonMap) :
    Exchange → Call (RootGetResponse PriceResponse)
  | Exchange.newRequestFailed err => ⟨none, some (GoError.wrapped "creating request" err), []⟩
  | Exchange.doFailed err => ⟨none, some (GoError.wrapped "making request" err), []⟩
  | Exchange.readAllFailed err => ⟨none, some (GoError.wrapped "reading response" err), []⟩
  | Exchange.received StatusCode body =>
    -- Parse response into protobuf
    if StatusCode = 200 then
      -- Normalize enum values before parsing
      let normalizedBody := normalizeEnumValues body
      match protojsonUnmarshal normalizedBody with
      | Except.error err =>
        -- If protojson fails, try regular JSON parsing for debugging
        ⟨none, some (GoError.wrapped "unmarshaling price response" err),
          Event.protojsonUnmarshal normalizedBody :: debugRawJson jsonUnmarshal body⟩
      | Except.ok priceResp =>
        ⟨some ⟨some (RootGetResponse_Response.PriceResponse_200 priceResp)⟩, none,
          [Event.protojsonUnmarshal normalizedBody]⟩
    else
      -- Handle error responses
      ⟨some ⟨some (RootGetResponse_Response.Empty_400 none)⟩, none, []⟩

/-- The method `GetQuote` fetches swap quotes using the Swap API (lines 121-186). -/
def GetQuote {QuoteResponse : Type}
    (protojsonUnmarshal : List Byte → Except GoError QuoteResponse)
    (jsonUnmarshal : List Byte → Except GoError JsonMap) :
    Exchange → Call (QuoteGetResponse QuoteResponse)
  | Exchange.newRequestFailed err => ⟨none, some (GoError.wrapped "creating request" err), []⟩
  | Exchange.doFailed err => ⟨none, some (GoError.wrapped "making request" err), []⟩
  | Exchange.readAllFailed err => ⟨none, some (GoError.wrapped "reading response" err), []⟩
  | Exchange.received StatusCode body =>
    -- Parse response into protobuf
    if StatusCode = 200 then
      -- Normalize enum values before parsing
      let normalizedBody := normalizeEnumValues body
      match protojsonUnmarshal normalizedBody with
      | Except.error err =>
        -- If protojson fails, try regular JSON parsing for debugging
        ⟨none, some (GoError.wrapped "unmarshaling quote response" err),
          Event.protojsonUnmarshal normalizedBody :: debugRawJson jsonUnmarshal body⟩
      | Except.ok quoteResp =>
        ⟨some ⟨some (QuoteGetResponse_Response.QuoteResponse_200 quoteResp)⟩, none,
          [Event.protojsonUnmarshal normalizedBody]⟩
    else
      ⟨some ⟨none⟩, none, []⟩

/-- The console summary of `GetTokenInfo`: one line per field whose type assertion succeeds. -/
def printTokenInfo (tokenInfo : JsonMap) : List Event :=
  [Event.printf "‚úÖ Token info received:\n" []]
    ++ (match tokenInfo.getString "name" with
        | some name => [Event.printf "   Name: %s\n" [PrintArg.str name]]
        | none => [])
    ++ (match tokenInfo.getString "symbol" with
        | some symbol => [Event.printf "   Symbol: %s\n" [PrintArg.str symbol]]
        | none => [])
    ++ (match tokenInfo.getFloat64 "decimals" with
        | some decimals => [Event.printf "   Decimals: %.0f\n" [PrintArg.float64 decimals]]
        | none => [])
    ++ (match tokenInfo.getFloat64 "daily_volume" with
        | some volume => [Event.printf "   Daily Volume: $%.2f\n" [PrintArg.float64 volume]]
        | none => [])

/-- The method `GetTokenInfo` fetches token information (lines 188-230). -/
def GetTokenInfo {Variant : Type}
    (jsonUnmarshal : List Byte → Except GoError JsonMap) :
    Exchange → Call (TokenAddressGetResponse Variant)
  | Exchange.newRequestFailed err => ⟨none, some (GoError.wrapped "creating request" err), []⟩
  | Exchange.doFailed err => ⟨none, some (GoError.wrapped "making request" err), []⟩
  | Exchange.readAllFailed err => ⟨none, some (GoError.wrapped "reading response" err), []⟩
  | Exchange.received _ body =>
    -- For demonstration, just return a basic response
    ⟨some ⟨none⟩, none,
      Event.jsonUnmarshal body ::
        -- Parse the JSON to show token info nicely
        match jsonUnmarshal body with
        | Except.ok tokenInfo => printTokenInfo tokenInfo
        | Except.error _ => []⟩

/-! ## The scan: recursion equations and induction principle -/

theorem replaceFrom_skip (P R : List Byte) (k : Nat) (s : List Byte) :
    replaceFrom P R k s = replaceFrom P R 0 (s.drop k) := by
  induction k generalizing s with
  | zero => simp
  | succ k ih =>
    cases s with
    | nil => simp [replaceFrom]
    | cons c t => simp [replaceFrom, ih]

theorem replaceAll_nil (P R : List Byte) : ReplaceAll [] P R = [] := by
  simp [ReplaceAll, replaceFrom]

theorem replaceAll_match (P R t : List Byte) (hP : P ≠ []) :
    ReplaceAll (P ++ t) P R = R ++ ReplaceAll t P R := by
  cases P with
  | nil => exact absurd rfl hP
  | cons a p =>
    have h : (a :: p).isPrefixOf (a :: (p ++ t)) = true := by
      rw [List.isPrefixOf_iff_prefix]
      exact List.prefix_append (a :: p) t
    show replaceFrom (a :: p) R 0 (a :: (p ++ t)) = _
    rw [replaceFrom, if_pos h, replaceFrom_skip]
    simp [ReplaceAll]

theorem replaceAll_step (P R : List Byte) (c : Byte) (t : List Byte)
    (h : ¬ P <+: c :: t) : ReplaceAll (c :: t) P R = c :: ReplaceAll t P R := by
  have h2 : ¬ (P.isPrefixOf (c :: t) = true) := by
    rw [List.isPrefixOf_iff_prefix]; exact h
  show replaceFrom P R 0 (c :: t) = _
  rw [replaceFrom, if_neg h2]
  rfl

theorem scan_induction (P : List Byte) (hP : P ≠ []) (motive : List Byte → Prop)
    (hnil : motive [])
    (hmatch : ∀ t, motive t → motive (P ++ t))
    (hstep : ∀ c t, ¬ P <+: c :: t → motive t → motive (c :: t)) :
    ∀ s, motive s := by
  have key : ∀ n, ∀ s : List Byte, s.length = n → motive s := by
    intro n
    induction n using Nat.strong_induction_on with
    | _ n ih =>
      intro s h
      cases s with
      | nil => exact hnil
      | cons c t =>
        by_cases hp : P <+: c :: t
        · obtain ⟨u, hu⟩ := hp
          rw [← hu]
          apply hmatch
          have hlen : (c :: t).length = P.length + u.length := by rw [← hu]; simp
          have hpos : 0 < P.length := List.length_pos.mpr hP
          exact ih u.length (by omega) u rfl
        · apply hstep c t hp
          exact ih t.length (by subst h; simp) t rfl
  intro s
  exact key s.length s rfl

theorem prefix_append_cases {w a b : List Byte} (h : w <+: a ++ b) :
    w <+: a ∨ ∃ v, w = a ++ v ∧ v <+: b := by
  rcases List.prefix_or_prefix_of_prefix h (List.prefix_append a b) with h1 | h1
  · exact Or.inl h1
  · obtain ⟨v, hv⟩ := h1
    refine Or.inr ⟨v, hv.symm, ?_⟩
    rw [← hv] at h
    exact (List.prefix_append_right_inj a).mp h

theorem infix_append_cases {q : List Byte} : ∀ {a b : List Byte}, q <:+: a ++ b →
    (∃ i, i < a.length ∧ q <+: a.drop i ++ b) ∨ q <:+: b
  | [], b, h => Or.inr (by simpa using h)
  | x :: a, b, h => by
    rw [List.cons_append, List.infix_cons_iff] at h
    rcases h with h | h
    · exact Or.inl ⟨0, by simp, by simpa using h⟩
    · rcases infix_append_cases h with ⟨i, hi, hq⟩ | h2
      · exact Or.inl ⟨i + 1, by simpa using hi, by simpa using hq⟩
      · exact Or.inr h2

theorem prefOK_cons {P R : List Byte} {c : Byte} {w : List Byte}
    (h : prefOK P R (c :: w) = true) :
    ¬ R <+: c :: w ∧ (c :: w <+: R → c :: w <+: P) ∧ prefOK P R w = true := by
  simp only [prefOK, Bool.and_eq_true, Bool.or_eq_true, Bool.not_eq_true',
    ← Bool.not_eq_true, List.isPrefixOf_iff_prefix] at h
  obtain ⟨⟨h1, h2⟩, h3⟩ := h
  refine ⟨h1, ?_, h3⟩
  intro hw
  rcases h2 with h2 | h2
  · exact absurd hw h2
  · exact h2

theorem prefOK_drop {P R : List Byte} : ∀ (k : Nat) {w : List Byte},
    prefOK P R w = true → prefOK P R (w.drop k) = true
  | 0, _, h => by simpa using h
  | _ + 1, [], h => by simpa using h
  | k + 1, _ :: w, h => by
    rw [List.drop_succ_cons]
    exact prefOK_drop k (prefOK_cons h).2.2

theorem pref_back (P R : List Byte) (hP : P ≠ []) :
    ∀ t w, prefOK P R w = true → w <+: ReplaceAll t P R → w <+: t := by
  refine scan_induction P hP _ ?_ ?_ ?_
  · intro w _ h
    rwa [replaceAll_nil] at h
  · intro t _ w hw h
    rw [replaceAll_match _ _ _ hP] at h
    cases w with
    | nil => exact List.nil_prefix
    | cons c w =>
      obtain ⟨h1, h2, _⟩ := prefOK_cons hw
      rcases prefix_append_cases h with h3 | ⟨v, hv, _⟩
      · exact (h2 h3).trans (List.prefix_append P t)
      · exact absurd ⟨v, hv.symm⟩ h1
  · intro c t hc ih w hw h
    rw [replaceAll_step _ _ _ _ hc] at h
    cases w with
    | nil => exact List.nil_prefix
    | cons a w =>
      rw [List.cons_prefix_cons] at h ⊢
      exact ⟨h.1, ih w (prefOK_cons hw).2.2 h.2⟩

theorem pref_fwd (P R : List Byte) (hP : P ≠ []) :
    ∀ t w, prefOK R P w = true → w <+: t → w <+: ReplaceAll t P R := by
  refine scan_induction P hP _ ?_ ?_ ?_
  · intro w _ h
    rwa [replaceAll_nil]
  · intro t _ w hw h
    rw [replaceAll_match _ _ _ hP]
    cases w with
    | nil => exact List.nil_prefix
    | cons c w =>
      obtain ⟨h1, h2, _⟩ := prefOK_cons hw
      rcases prefix_append_cases h with h3 | ⟨v, hv, _⟩
      · exact (h2 h3).trans (List.prefix_append R _)
      · exact absurd ⟨v, hv.symm⟩ h1
  · intro c t hc ih w hw h
    rw [replaceAll_step _ _ _ _ hc]
    cases w with
    | nil => exact List.nil_prefix
    | cons a w =>
      rw [List.cons_prefix_cons] at h ⊢
      exact ⟨h.1, ih w (prefOK_cons hw).2.2 h.2⟩

theorem createOK_spec {P R Q : List Byte} {F : List (List Byte)}
    (h : createOK P R Q F = true) :
    (Q = P ∨ Q ∈ F) ∧ prefOK P R Q.tail = true ∧
      ∀ i, i < R.length → ¬ Q <+: R.drop i ∧
        (R.drop i <+: Q → ∃ z, z ∈ F ∧ z <:+: P ++ Q.drop (R.length - i)) := by
  simp only [createOK, Bool.and_eq_true, Bool.or_eq_true, 
    List.all_eq_true, List.mem_range, Bool.not_eq_true', ← Bool.not_eq_true,
    List.isPrefixOf_iff_prefix, List.any_eq_true, decide_eq_true_eq] at h
  obtain ⟨⟨h1, h2⟩, h3⟩ := h
  refine ⟨h1, h2, ?_⟩
  intro i hi
  obtain ⟨h4, h5⟩ := h3 i hi
  refine ⟨h4, ?_⟩
  intro hr
  rcases h5 with h5 | h5
  · exact absurd hr h5
  · exact h5

theorem keepOK_spec {P R Q : List Byte} (h : keepOK P R Q = true) :
    prefOK R P Q.tail = true ∧
      ∀ i, i < P.length → ¬ Q <+: P.drop i ∧
        (P.drop i <+: Q → Q <:+: R ++ Q.drop (P.length - i)) := by
  simp only [keepOK, Bool.and_eq_true, Bool.or_eq_true,
    List.all_eq_true, List.mem_range, Bool.not_eq_true', ← Bool.not_eq_true,
    List.isPrefixOf_iff_prefix, decide_eq_true_eq] at h
  obtain ⟨h2, h3⟩ := h
  refine ⟨h2, ?_⟩
  intro i hi
  obtain ⟨h4, h5⟩ := h3 i hi
  refine ⟨h4, ?_⟩
  intro hr
  rcases h5 with h5 | h5
  · exact absurd hr h5
  · exact h5

/-- No occurrence of `Q` is present after a substitution pass when the input avoids the
words of `F` and the overlap check `createOK` holds. -/
theorem no_create (P R Q : List Byte) (F : List (List Byte)) (hP : P ≠ [])
    (hchk : createOK P R Q F = true) :
    ∀ s, (∀ z, z ∈ F → ¬ z <:+: s) → ¬ Q <:+: ReplaceAll s P R := by
  obtain ⟨hQ, hpref, hover⟩ := createOK_spec hchk
  refine scan_induction P hP _ ?_ ?_ ?_
  · intro hF h
    rw [replaceAll_nil] at h
    have hq : Q = [] := List.eq_nil_of_infix_nil h
    rcases hQ with hQ | hQ
    · exact hP (hQ ▸ hq)
    · exact hF Q hQ (hq ▸ List.nil_infix)
  · intro t ih hF h
    have hFt : ∀ z, z ∈ F → ¬ z <:+: t := fun z hz hzt =>
      hF z hz (hzt.trans (List.suffix_append P t).isInfix)
    rw [replaceAll_match _ _ _ hP] at h
    rcases infix_append_cases h with ⟨i, hi, hq⟩ | h2
    · obtain ⟨h4, h5⟩ := hover i hi
      rcases prefix_append_cases hq with h6 | ⟨v, hv, hvt⟩
      · exact h4 h6
      · obtain ⟨z, hz, hzin⟩ := h5 ⟨v, hv.symm⟩
        have hlen : (R.drop i).length = R.length - i := List.length_drop i R
        have hvq : Q.drop (R.length - i) = v := by
          rw [hv, ← hlen, List.drop_left]
        have hvt2 : v = Q.tail.drop (R.length - i - 1) := by
          rw [← hvq, List.drop_tail]
          congr 1
          omega
        have hvp : prefOK P R v = true := by
          rw [hvt2]; exact prefOK_drop _ hpref
        have hvt3 : v <+: t := pref_back P R hP t v hvp hvt
        rw [hvq] at hzin
        obtain ⟨u, hu⟩ := hvt3
        apply hF z hz
        refine hzin.trans ?_
        rw [← hu, ← List.append_assoc]
        exact (List.prefix_append _ _).isInfix
    · exact ih hFt h2
  · intro c t hc ih hF h
    have hFt : ∀ z, z ∈ F → ¬ z <:+: t := fun z hz hzt =>
      hF z hz (hzt.trans (List.suffix_cons c t).isInfix)
    rw [replaceAll_step _ _ _ _ hc, List.infix_cons_iff] at h
    rcases h with h | h
    · cases hq : Q with
      | nil =>
        rcases hQ with hQ | hQ
        · exact hP (hQ ▸ hq)
        · exact hF Q hQ (hq ▸ List.nil_infix)
      | cons a w =>
        rw [hq, List.cons_prefix_cons] at h
        have hw : prefOK P R w = true := by
          have := hpref
          rwa [hq] at this
        have hwt : w <+: t := pref_back P R hP t w hw h.2
        have hqs : Q <+: c :: t := by
          rw [hq, List.cons_prefix_cons]; exact ⟨h.1, hwt⟩
        rcases hQ with hQ | hQ
        · exact hc (hQ ▸ hqs)
        · exact hF Q hQ hqs.isInfix
    · exact ih hFt h

/-- An occurrence of `Q` survives a substitution pass when the overlap check `keepOK` holds. -/
theorem preserve (P R Q : List Byte) (hP : P ≠ []) (hchk : keepOK P R Q = true) :
    ∀ s, Q <:+: s → Q <:+: ReplaceAll s P R := by
  obtain ⟨hpref, hover⟩ := keepOK_spec hchk
  refine scan_induction P hP _ ?_ ?_ ?_
  · intro h
    rwa [replaceAll_nil]
  · intro t ih h
    rw [replaceAll_match _ _ _ hP]
    rcases infix_append_cases h with ⟨i, hi, hq⟩ | h2
    · obtain ⟨h4, h5⟩ := hover i hi
      rcases prefix_append_cases hq with h6 | ⟨v, hv, hvt⟩
      · exact absurd h6 h4
      · have hzin := h5 ⟨v, hv.symm⟩
        have hlen : (P.drop i).length = P.length - i := List.length_drop i P
        have hvq : Q.drop (P.length - i) = v := by
          rw [hv, ← hlen, List.drop_left]
        have hvt2 : v = Q.tail.drop (P.length - i - 1) := by
          rw [← hvq, List.drop_tail]
          congr 1
          omega
        have hvp : prefOK R P v = true := by
          rw [hvt2]; exact prefOK_drop _ hpref
        have hvt3 : v <+: ReplaceAll t P R := pref_fwd P R hP t v hvp hvt
        rw [hvq] at hzin
        obtain ⟨u, hu⟩ := hvt3
        refine hzin.trans ?_
        rw [← hu, ← List.append_assoc]
        exact (List.prefix_append _ _).isInfix
    · exact (ih h2).trans (List.suffix_append R _).isInfix
  · intro c t hc ih h
    rw [replaceAll_step _ _ _ _ hc, List.infix_cons_iff]
    rw [List.infix_cons_iff] at h
    rcases h with h | h
    · left
      cases hq : Q with
      | nil => exact List.nil_prefix
      | cons a w =>
        rw [hq, List.cons_prefix_cons] at h
        have hw : prefOK R P w = true := by
          have := hpref
          rwa [hq] at this
        rw [List.cons_prefix_cons]
        exact ⟨h.1, pref_fwd P R hP t w hw h.2⟩
    · exact Or.inr (ih h)

/-- Every pass rewrites at least one occurrence: if the pattern occurs, the
replacement text occurs in the result. -/
theorem replaced (P R : List Byte) (hP : P ≠ []) :
    ∀ s, P <:+: s → R <:+: ReplaceAll s P R := by
  refine scan_induction P hP _ ?_ ?_ ?_
  · intro h
    exact absurd (List.eq_nil_of_infix_nil h) hP
  · intro t _ _
    rw [replaceAll_match _ _ _ hP]
    exact (List.prefix_append R _).isInfix
  · intro c t hc ih h
    rw [replaceAll_step _ _ _ _ hc]
    rw [List.infix_cons_iff] at h
    rcases h with h | h
    · exact absurd h hc
    · exact (ih h).trans (List.suffix_cons c _).isInfix

/-- A pass whose pattern does not occur returns its input. -/
theorem unchanged (P R : List Byte) : ∀ s, ¬ P <:+: s → ReplaceAll s P R = s
  | [], _ => replaceAll_nil P R
  | c :: t, h => by
    have hc : ¬ P <+: c :: t := fun hp => h hp.isInfix
    rw [replaceAll_step _ _ _ _ hc, unchanged P R t]
    exact fun ht => h (ht.trans (List.suffix_cons c t).isInfix)

theorem rewriteOK_spec {P R Q w Q2 : List Byte} (h : rewriteOK P R Q w Q2 = true) :
    prefOK R P w = true ∧ Q2 <:+: R ++ w ∧ P <+: Q ∧
      ∀ i, i < P.length → ¬ Q <+: P.drop i ∧
        (P.drop i <+: Q → w <+: Q.drop (P.length - i)) := by
  simp only [rewriteOK, Bool.and_eq_true, Bool.or_eq_true,
    List.all_eq_true, List.mem_range, Bool.not_eq_true', ← Bool.not_eq_true,
    List.isPrefixOf_iff_prefix, decide_eq_true_eq] at h
  obtain ⟨⟨⟨h1, h2⟩, h3⟩, h4⟩ := h
  refine ⟨h1, h2, h3, ?_⟩
  intro i hi
  obtain ⟨h5, h6⟩ := h4 i hi
  refine ⟨h5, ?_⟩
  intro hr
  rcases h6 with h6 | h6
  · exact absurd hr h6
  · exact h6

/-- An occurrence of `Q` in the input of a pass leaves an occurrence of `Q2` in its output when
the check `rewriteOK` holds. -/
theorem rewrite_keeps (P R Q w Q2 : List Byte) (hP : P ≠ [])
    (hchk : rewriteOK P R Q w Q2 = true) :
    ∀ s, Q <:+: s → Q2 <:+: ReplaceAll s P R := by
  obtain ⟨hw, hQ2, hPQ, hover⟩ := rewriteOK_spec hchk
  refine scan_induction P hP _ ?_ ?_ ?_
  · intro h
    have hq : Q = [] := List.eq_nil_of_infix_nil h
    rw [hq] at hPQ
    exact absurd (List.eq_nil_of_prefix_nil hPQ) hP
  · intro t ih h
    rw [replaceAll_match _ _ _ hP]
    rcases infix_append_cases h with ⟨i, hi, hq⟩ | h2
    · obtain ⟨h4, h5⟩ := hover i hi
      rcases prefix_append_cases hq with h6 | ⟨v, hv, hvt⟩
      · exact absurd h6 h4
      · have hlen : (P.drop i).length = P.length - i := List.length_drop i P
        have hvq : Q.drop (P.length - i) = v := by
          rw [hv, ← hlen, List.drop_left]
        have hwv : w <+: v := hvq ▸ h5 ⟨v, hv.symm⟩
        have hwt : w <+: ReplaceAll t P R := pref_fwd P R hP t w hw (hwv.trans hvt)
        obtain ⟨u, hu⟩ := hwt
        refine hQ2.trans ?_
        rw [← hu, ← List.append_assoc]
        exact (List.prefix_append _ _).isInfix
    · exact (ih h2).trans (List.suffix_append R _).isInfix
  · intro c t hc ih h
    rw [replaceAll_step _ _ _ _ hc]
    rw [List.infix_cons_iff] at h
    rcases h with h | h
    · exact absurd (hPQ.trans h) hc
    · exact (ih h).trans (List.suffix_cons c _).isInfix

theorem length_le_replaceAll (P R : List Byte) (hP : P ≠ []) (h : P.length ≤ R.length) :
    ∀ s, s.length ≤ (ReplaceAll s P R).length := by
  refine scan_induction P hP _ ?_ ?_ ?_
  · simp
  · intro t ih
    rw [replaceAll_match _ _ _ hP, List.length_append, List.length_append]
    omega
  · intro c t hc ih
    rw [replaceAll_step _ _ _ _ hc, List.length_cons, List.length_cons]
    omega

theorem length_lt_replaceAll (P R : List Byte) (hP : P ≠ []) (h : P.length < R.length) :
    ∀ s, P <:+: s → s.length < (ReplaceAll s P R).length := by
  refine scan_induction P hP _ ?_ ?_ ?_
  · intro h0
    exact absurd (List.eq_nil_of_infix_nil h0) hP
  · intro t _ _
    have := length_le_replaceAll P R hP (Nat.le_of_lt h) t
    rw [replaceAll_match _ _ _ hP, List.length_append, List.length_append]
    omega
  · intro c t hc ih h0
    rw [List.infix_cons_iff] at h0
    rcases h0 with h0 | h0
    · exact absurd h0 hc
    · have := ih h0
      rw [replaceAll_step _ _ _ _ hc, List.length_cons, List.length_cons]
      omega

/-! ## Sequences of passes -/

theorem runPasses_append (a b : List (List Byte × List Byte)) (s : List Byte) :
    runPasses (a ++ b) s = runPasses b (runPasses a s) := by
  simp [runPasses, List.foldl_append]

theorem runPasses_cons (p : List Byte × List Byte) (b : List (List Byte × List Byte))
    (s : List Byte) : runPasses (p :: b) s = runPasses b (ReplaceAll s p.1 p.2) := rfl

theorem stable_runPasses (Q : List Byte) : ∀ (passes : List (List Byte × List Byte)),
    stableOK passes Q = true → ∀ s, ¬ Q <:+: s → ¬ Q <:+: runPasses passes s
  | [], _, _, h => h
  | p :: ps, hchk, s, h => by
    simp only [stableOK, List.all_cons, Bool.and_eq_true, decide_eq_true_eq] at hchk
    obtain ⟨⟨hp, hc⟩, hrest⟩ := hchk
    rw [runPasses_cons]
    apply stable_runPasses Q ps hrest
    apply no_create p.1 p.2 Q [Q] hp hc s
    intro z hz
    rw [List.mem_singleton] at hz
    rwa [hz]

theorem keep_runPasses (Q : List Byte) : ∀ (passes : List (List Byte × List Byte)),
    keepAllOK passes Q = true → ∀ s, Q <:+: s → Q <:+: runPasses passes s
  | [], _, _, h => h
  | p :: ps, hchk, s, h => by
    simp only [keepAllOK, List.all_cons, Bool.and_eq_true, decide_eq_true_eq] at hchk
    obtain ⟨⟨hp, hc⟩, hrest⟩ := hchk
    rw [runPasses_cons]
    exact keep_runPasses Q ps hrest _ (preserve p.1 p.2 Q hp hc s h)

/-- The source text `P` of the pass `P ↦ R` is absent from the result of
`before`, `P ↦ R`, `after`, `:null ↦ :""` when the input contains neither `P` followed by its
own tail nor `:null` followed by the tail of `P`. -/
theorem enum_source_absent (before after : List (List Byte × List Byte)) (P R : List Byte)
    (hP : P ≠ [])
    (h1 : stableOK before (P ++ P.tail) = true)
    (h2 : stableOK (before ++ (P, R) :: after) (srcNull ++ P.tail) = true)
    (h3 : createOK P R P [P ++ P.tail] = true)
    (h4 : stableOK after P = true)
    (h5 : createOK srcNull dstNull P [P, srcNull ++ P.tail] = true)
    (x : List Byte) (hZ : ¬ P ++ P.tail <:+: x) (hN : ¬ srcNull ++ P.tail <:+: x) :
    ¬ P <:+: ReplaceAll (runPasses after (ReplaceAll (runPasses before x) P R))
      srcNull dstNull := by
  have hb : ¬ P ++ P.tail <:+: runPasses before x := stable_runPasses _ before h1 x hZ
  have hk : ¬ P <:+: ReplaceAll (runPasses before x) P R := by
    apply no_create P R P [P ++ P.tail] hP h3
    intro z hz
    rw [List.mem_singleton] at hz
    rwa [hz]
  have ha : ¬ P <:+: runPasses after (ReplaceAll (runPasses before x) P R) :=
    stable_runPasses _ after h4 _ hk
  have hn : ¬ srcNull ++ P.tail <:+: runPasses after (ReplaceAll (runPasses before x) P R) := by
    have := stable_runPasses _ _ h2 x hN
    rwa [runPasses_append, runPasses_cons] at this
  apply no_create srcNull dstNull P [P, srcNull ++ P.tail] (by decide) h5
  intro z hz
  simp only [List.mem_cons, List.mem_singleton, List.not_mem_nil, or_false] at hz
  rcases hz with hz | hz
  · rwa [hz]
  · rwa [hz]

/-- The target text `R` of the pass `P ↦ R` is present in the result of
`before`, `P ↦ R`, `after` when the input contains `P`. -/
theorem enum_target_present (before after : List (List Byte × List Byte)) (P R : List Byte)
    (hP : P ≠ [])
    (h1 : keepAllOK before P = true)
    (h2 : keepAllOK after R = true)
    (x : List Byte) (h : P <:+: x) :
    R <:+: runPasses after (ReplaceAll (runPasses before x) P R) :=
  keep_runPasses R after h2 _ (replaced P R hP _ (keep_runPasses P before h1 x h))

theorem length_le_runPasses : ∀ (passes : List (List Byte × List Byte)),
    growOK passes = true → ∀ s, s.length ≤ (runPasses passes s).length
  | [], _, _ => Nat.le_refl _
  | p :: ps, hchk, s => by
    simp only [growOK, List.all_cons, Bool.and_eq_true, decide_eq_true_eq] at hchk
    obtain ⟨⟨hp, hc⟩, hrest⟩ := hchk
    rw [runPasses_cons]
    exact Nat.le_trans (length_le_replaceAll p.1 p.2 hp hc s)
      (length_le_runPasses ps hrest _)

/-- The source text `P` of the pass `P ↦ R` is present in the result of
`before`, `P ↦ R`, `after`, `:null ↦ :""` when the input contains `P` followed by its own tail
or `:null` followed by the tail of `P`. -/
theorem enum_source_remains (before after : List (List Byte × List Byte)) (P R : List Byte)
    (hP : P ≠ [])
    (h1 : keepAllOK before (P ++ P.tail) = true)
    (h2 : rewriteOK P R (P ++ P.tail) P.tail P = true)
    (h3 : keepAllOK (after ++ [(srcNull, dstNull)]) P = true)
    (h4 : keepAllOK (before ++ (P, R) :: after) (srcNull ++ P.tail) = true)
    (h5 : rewriteOK srcNull dstNull (srcNull ++ P.tail) P.tail P = true)
    (x : List Byte) (h : P ++ P.tail <:+: x ∨ srcNull ++ P.tail <:+: x) :
    P <:+: runPasses (after ++ [(srcNull, dstNull)]) (ReplaceAll (runPasses before x) P R) := by
  rcases h with h | h
  · exact keep_runPasses P _ h3 _
      (rewrite_keeps P R _ _ P hP h2 _ (keep_runPasses _ before h1 x h))
  · have hn := keep_runPasses _ _ h4 x h
    rw [runPasses_append, runPasses_cons] at hn
    rw [runPasses_append]
    exact rewrite_keeps srcNull dstNull _ _ P (by decide) h5 _ hn

/-- An input that contains the source text `P` of an enum pass and no `:null` is strictly
shorter than its normal form. -/
theorem enum_source_grows (before after : List (List Byte × List Byte)) (P R : List Byte)
    (hP : P ≠ []) (hlt : P.length < R.length)
    (h1 : keepAllOK before P = true) (hg1 : growOK before = true) (hg2 : growOK after = true)
    (h3 : stableOK (before ++ (P, R) :: after) srcNull = true)
    (y : List Byte) (hy : P <:+: y) (hn : ¬ srcNull <:+: y) :
    ReplaceAll (runPasses after (ReplaceAll (runPasses before y) P R)) srcNull dstNull ≠ y := by
  have hnull := stable_runPasses srcNull _ h3 y hn
  rw [runPasses_append, runPasses_cons] at hnull
  rw [unchanged srcNull dstNull _ hnull]
  have l1 := length_le_runPasses before hg1 y
  have l2 := length_lt_replaceAll P R hP hlt _ (keep_runPasses P before h1 y hy)
  have l3 := length_le_runPasses after hg2 (ReplaceAll (runPasses before y) P R)
  intro heq
  rw [heq] at l3
  omega

/-! ## The normaliser -/

/-- The last pass leaves no `:null`. -/
theorem null_absent (x : List Byte) : ¬ srcNull <:+: normalizeEnumValues x := by
  have hchk : createOK srcNull dstNull srcNull [] = true := by decide
  exact no_create srcNull dstNull srcNull [] (by decide) hchk _ (fun _ hz => by cases hz)

/-- An input without any of the six source texts is returned as it is. -/
theorem normalize_eq_self (x : List Byte)
    (h1 : ¬ srcHigh <:+: x) (h2 : ¬ srcMedium <:+: x) (h3 : ¬ srcLow <:+: x)
    (h4 : ¬ srcExactIn <:+: x) (h5 : ¬ srcExactOut <:+: x) (h6 : ¬ srcNull <:+: x) :
    normalizeEnumValues x = x := by
  show ReplaceAll (ReplaceAll (ReplaceAll (ReplaceAll (ReplaceAll (ReplaceAll x
    srcHigh dstHigh) srcMedium dstMedium) srcLow dstLow) srcExactIn dstExactIn)
    srcExactOut dstExactOut) srcNull dstNull = x
  rw [unchanged srcHigh dstHigh x h1, unchanged srcMedium dstMedium x h2,
    unchanged srcLow dstLow x h3, unchanged srcExactIn dstExactIn x h4,
    unchanged srcExactOut dstExactOut x h5, unchanged srcNull dstNull x h6]

theorem high_absent (x : List Byte) (hZ : ¬ srcHigh ++ srcHigh.tail <:+: x)
    (hN : ¬ srcNull ++ srcHigh.tail <:+: x) : ¬ srcHigh <:+: normalizeEnumValues x :=
  enum_source_absent []
    [(srcMedium, dstMedium), (srcLow, dstLow), (srcExactIn, dstExactIn),
      (srcExactOut, dstExactOut)]
    srcHigh dstHigh (by decide) (by decide) (by decide) (by decide) (by decide) (by decide)
    x hZ hN

theorem medium_absent (x : List Byte) (hZ : ¬ srcMedium ++ srcMedium.tail <:+: x)
    (hN : ¬ srcNull ++ srcMedium.tail <:+: x) : ¬ srcMedium <:+: normalizeEnumValues x :=
  enum_source_absent [(srcHigh, dstHigh)]
    [(srcLow, dstLow), (srcExactIn, dstExactIn), (srcExactOut, dstExactOut)]
    srcMedium dstMedium (by decide) (by decide) (by decide) (by decide) (by decide) (by decide)
    x hZ hN

theorem low_absent (x : List Byte) (hZ : ¬ srcLow ++ srcLow.tail <:+: x)
    (hN : ¬ srcNull ++ srcLow.tail <:+: x) : ¬ srcLow <:+: normalizeEnumValues x :=
  enum_source_absent [(srcHigh, dstHigh), (srcMedium, dstMedium)]
    [(srcExactIn, dstExactIn), (srcExactOut, dstExactOut)]
    srcLow dstLow (by decide) (by decide) (by decide) (by decide) (by decide) (by decide)
    x hZ hN

theorem exactIn_absent (x : List Byte) (hZ : ¬ srcExactIn ++ srcExactIn.tail <:+: x)
    (hN : ¬ srcNull ++ srcExactIn.tail <:+: x) : ¬ srcExactIn <:+: normalizeEnumValues x :=
  enum_source_absent [(srcHigh, dstHigh), (srcMedium, dstMedium), (srcLow, dstLow)]
    [(srcExactOut, dstExactOut)]
    srcExactIn dstExactIn (by decide) (by decide) (by decide) (by decide) (by decide)
    (by decide) x hZ hN

theorem exactOut_absent (x : List Byte) (hZ : ¬ srcExactOut ++ srcExactOut.tail <:+: x)
    (hN : ¬ srcNull ++ srcExactOut.tail <:+: x) : ¬ srcExactOut <:+: normalizeEnumValues x :=
  enum_source_absent
    [(srcHigh, dstHigh), (srcMedium, dstMedium), (srcLow, dstLow), (srcExactIn, dstExactIn)]
    []
    srcExactOut dstExactOut (by decide) (by decide) (by decide) (by decide) (by decide)
    (by decide) x hZ hN

theorem high_present (x : List Byte) (h : srcHigh <:+: x) :
    dstHigh <:+: normalizeEnumValues x :=
  enum_target_present []
    [(srcMedium, dstMedium), (srcLow, dstLow), (srcExactIn, dstExactIn),
      (srcExactOut, dstExactOut), (srcNull, dstNull)]
    srcHigh dstHigh (by decide) (by decide) (by decide) x h

theorem medium_present (x : List Byte) (h : srcMedium <:+: x) :
    dstMedium <:+: normalizeEnumValues x :=
  enum_target_present [(srcHigh, dstHigh)]
    [(srcLow, dstLow), (srcExactIn, dstExactIn), (srcExactOut, dstExactOut), (srcNull, dstNull)]
    srcMedium dstMedium (by decide) (by decide) (by decide) x h

theorem low_present (x : List Byte) (h : srcLow <:+: x) :
    dstLow <:+: normalizeEnumValues x :=
  enum_target_present [(srcHigh, dstHigh), (srcMedium, dstMedium)]
    [(srcExactIn, dstExactIn), (srcExactOut, dstExactOut), (srcNull, dstNull)]
    srcLow dstLow (by decide) (by decide) (by decide) x h

theorem exactIn_present (x : List Byte) (h : srcExactIn <:+: x) :
    dstExactIn <:+: normalizeEnumValues x :=
  enum_target_present [(srcHigh, dstHigh), (srcMedium, dstMedium), (srcLow, dstLow)]
    [(srcExactOut, dstExactOut), (srcNull, dstNull)]
    srcExactIn dstExactIn (by decide) (by decide) (by decide) x h

theorem exactOut_present (x : List Byte) (h : srcExactOut <:+: x) :
    dstExactOut <:+: normalizeEnumValues x :=
  enum_target_present
    [(srcHigh, dstHigh), (srcMedium, dstMedium), (srcLow, dstLow), (srcExactIn, dstExactIn)]
    [(srcNull, dstNull)]
    srcExactOut dstExactOut (by decide) (by decide) (by decide) x h

theorem high_remains (x : List Byte)
    (h : srcHigh ++ srcHigh.tail <:+: x ∨ srcNull ++ srcHigh.tail <:+: x) :
    srcHigh <:+: normalizeEnumValues x :=
  enum_source_remains []
    [(srcMedium, dstMedium), (srcLow, dstLow), (srcExactIn, dstExactIn),
      (srcExactOut, dstExactOut)]
    srcHigh dstHigh (by decide) (by decide) (by decide) (by decide) (by decide) (by decide) x h

theorem medium_remains (x : List Byte)
    (h : srcMedium ++ srcMedium.tail <:+: x ∨ srcNull ++ srcMedium.tail <:+: x) :
    srcMedium <:+: normalizeEnumValues x :=
  enum_source_remains [(srcHigh, dstHigh)]
    [(srcLow, dstLow), (srcExactIn, dstExactIn), (srcExactOut, dstExactOut)]
    srcMedium dstMedium (by decide) (by decide) (by decide) (by decide) (by decide) (by decide)
    x h

theorem low_remains (x : List Byte)
    (h : srcLow ++ srcLow.tail <:+: x ∨ srcNull ++ srcLow.tail <:+: x) :
    srcLow <:+: normalizeEnumValues x :=
  enum_source_remains [(srcHigh, dstHigh), (srcMedium, dstMedium)]
    [(srcExactIn, dstExactIn), (srcExactOut, dstExactOut)]
    srcLow dstLow (by decide) (by decide) (by decide) (by decide) (by decide) (by decide) x h

theorem exactIn_remains (x : List Byte)
    (h : srcExactIn ++ srcExactIn.tail <:+: x ∨ srcNull ++ srcExactIn.tail <:+: x) :
    srcExactIn <:+: normalizeEnumValues x :=
  enum_source_remains [(srcHigh, dstHigh), (srcMedium, dstMedium), (srcLow, dstLow)]
    [(srcExactOut, dstExactOut)]
    srcExactIn dstExactIn (by decide) (by decide) (by decide) (by decide) (by decide)
    (by decide) x h

theorem exactOut_remains (x : List Byte)
    (h : srcExactOut ++ srcExactOut.tail <:+: x ∨ srcNull ++ srcExactOut.tail <:+: x) :
    srcExactOut <:+: normalizeEnumValues x :=
  enum_source_remains
    [(srcHigh, dstHigh), (srcMedium, dstMedium), (srcLow, dstLow), (srcExactIn, dstExactIn)]
    []
    srcExactOut dstExactOut (by decide) (by decide) (by decide) (by decide) (by decide)
    (by decide) x h

theorem high_grows (y : List Byte) (hy : srcHigh <:+: y) (hn : ¬ srcNull <:+: y) :
    normalizeEnumValues y ≠ y :=
  enum_source_grows []
    [(srcMedium, dstMedium), (srcLow, dstLow), (srcExactIn, dstExactIn),
      (srcExactOut, dstExactOut)]
    srcHigh dstHigh (by decide) (by decide) (by decide) (by decide) (by decide) (by decide)
    y hy hn

theorem medium_grows (y : List Byte) (hy : srcMedium <:+: y) (hn : ¬ srcNull <:+: y) :
    normalizeEnumValues y ≠ y :=
  enum_source_grows [(srcHigh, dstHigh)]
    [(srcLow, dstLow), (srcExactIn, dstExactIn), (srcExactOut, dstExactOut)]
    srcMedium dstMedium (by decide) (by decide) (by decide) (by decide) (by decide) (by decide)
    y hy hn

theorem low_grows (y : List Byte) (hy : srcLow <:+: y) (hn : ¬ srcNull <:+: y) :
    normalizeEnumValues y ≠ y :=
  enum_source_grows [(srcHigh, dstHigh), (srcMedium, dstMedium)]
    [(srcExactIn, dstExactIn), (srcExactOut, dstExactOut)]
    srcLow dstLow (by decide) (by decide) (by decide) (by decide) (by decide) (by decide)
    y hy hn

theorem exactIn_grows (y : List Byte) (hy : srcExactIn <:+: y) (hn : ¬ srcNull <:+: y) :
    normalizeEnumValues y ≠ y :=
  enum_source_grows [(srcHigh, dstHigh), (srcMedium, dstMedium), (srcLow, dstLow)]
    [(srcExactOut, dstExactOut)]
    srcExactIn dstExactIn (by decide) (by decide) (by decide) (by decide) (by decide)
    (by decide) y hy hn

theorem exactOut_grows (y : List Byte) (hy : srcExactOut <:+: y) (hn : ¬ srcNull <:+: y) :
    normalizeEnumValues y ≠ y :=
  enum_source_grows
    [(srcHigh, dstHigh), (srcMedium, dstMedium), (srcLow, dstLow), (srcExactIn, dstExactIn)]
    []
    srcExactOut dstExactOut (by decide) (by decide) (by decide) (by decide) (by decide)
    (by decide) y hy hn

/-! ## The client methods -/

theorem decoderCalls_debugRawJson (js : List Byte → Except GoError JsonMap) (body : List Byte) :
    decoderCalls (debugRawJson js body) = [] := by
  unfold debugRawJson
  cases js body <;> rfl

theorem getPrice_not200 {P : Type} (dec : List Byte → Except GoError P)
    (js : List Byte → Except GoError JsonMap) (status : Int) (body : List Byte)
    (h : status ≠ 200) :
    GetPrice dec js (Exchange.received status body)
      = ⟨some ⟨some (RootGetResponse_Response.Empty_400 none)⟩, none, []⟩ := by
  simp [GetPrice, h]

theorem getPrice_decode_error {P : Type} (dec : List Byte → Except GoError P)
    (js : List Byte → Except GoError JsonMap) (body : List Byte) (e : GoError)
    (h : dec (normalizeEnumValues body) = Except.error e) :
    GetPrice dec js (Exchange.received 200 body)
      = ⟨none, some (GoError.wrapped "unmarshaling price response" e),
          Event.protojsonUnmarshal (normalizeEnumValues body) :: debugRawJson js body⟩ := by
  simp [GetPrice, h]

theorem getPrice_decode_ok {P : Type} (dec : List Byte → Except GoError P)
    (js : List Byte → Except GoError JsonMap) (body : List Byte) (m : P)
    (h : dec (normalizeEnumValues body) = Except.ok m) :
    GetPrice dec js (Exchange.received 200 body)
      = ⟨some ⟨some (RootGetResponse_Response.PriceResponse_200 m)⟩, none,
          [Event.protojsonUnmarshal (normalizeEnumValues body)]⟩ := by
  simp [GetPrice, h]

theorem getQuote_not200 {Q : Type} (dec : List Byte → Except GoError Q)
    (js : List Byte → Except GoError JsonMap) (status : Int) (body : List Byte)
    (h : status ≠ 200) :
    GetQuote dec js (Exchange.received status body) = ⟨some ⟨none⟩, none, []⟩ := by
  simp [GetQuote, h]

theorem getQuote_decode_error {Q : Type} (dec : List Byte → Except GoError Q)
    (js : List Byte → Except GoError JsonMap) (body : List Byte) (e : GoError)
    (h : dec (normalizeEnumValues body) = Except.error e) :
    GetQuote dec js (Exchange.received 200 body)
      = ⟨none, some (GoError.wrapped "unmarshaling quote response" e),
          Event.protojsonUnmarshal (normalizeEnumValues body) :: debugRawJson js body⟩ := by
  simp [GetQuote, h]

theorem getQuote_decode_ok {Q : Type} (dec : List Byte → Except GoError Q)
    (js : List Byte → Except GoError JsonMap) (body : List Byte) (m : Q)
    (h : dec (normalizeEnumValues body) = Except.ok m) :
    GetQuote dec js (Exchange.received 200 body)
      = ⟨some ⟨some (QuoteGetResponse_Response.QuoteResponse_200 m)⟩, none,
          [Event.protojsonUnmarshal (normalizeEnumValues body)]⟩ := by
  simp [GetQuote, h]

/-! ## The claims -/

/-- C1, counterexample: on the input `:nullconfidenceLevel":"high"` one application gives
`:""confidenceLevel":"high"`, in which the last pass has completed an occurrence of
`"confidenceLevel":"high"`; a second application rewrites it, so normalisation is not
idempotent. It is not idempotent on `"swapMode":"ExactIn"swapMode":"ExactIn"` either, where two
occurrences share a quote and one application rewrites only the first. -/
theorem C1_not_idempotent :
    normalizeEnumValues (bytes ":nullconfidenceLevel\":\"high\"")
        = bytes ":\"\"confidenceLevel\":\"high\"" ∧
      normalizeEnumValues (normalizeEnumValues (bytes ":nullconfidenceLevel\":\"high\""))
        = bytes ":\"\"confidenceLevel\":\"CONFIDENCE_LEVEL_HIGH\"" ∧
      normalizeEnumValues (normalizeEnumValues (bytes ":nullconfidenceLevel\":\"high\""))
        ≠ normalizeEnumValues (bytes ":nullconfidenceLevel\":\"high\"") ∧
      normalizeEnumValues (normalizeEnumValues
          (bytes "\"swapMode\":\"ExactIn\"swapMode\":\"ExactIn\""))
        ≠ normalizeEnumValues (bytes "\"swapMode\":\"ExactIn\"swapMode\":\"ExactIn\"") := by
  decide

/-- C1, amended: normalisation is idempotent at an input exactly when, in that input, none of
the five enum source texts is immediately followed by its own text without the opening quote,
and `:null` is never immediately followed by an enum source text without its opening quote. -/
theorem C1_idempotent_iff_separated (x : List Byte) :
    normalizeEnumValues (normalizeEnumValues x) = normalizeEnumValues x ↔
      ∀ p ∈ enumSources, ¬ p ++ p.tail <:+: x ∧ ¬ srcNull ++ p.tail <:+: x := by
  constructor
  · intro hidem p hp
    have hn := null_absent x
    simp only [enumSources, List.mem_cons, List.mem_singleton, List.not_mem_nil,
      or_false] at hp
    by_contra hcon
    have hor : p ++ p.tail <:+: x ∨ srcNull ++ p.tail <:+: x := by
      by_contra hno
      exact hcon ⟨fun h => hno (Or.inl h), fun h => hno (Or.inr h)⟩
    rcases hp with rfl | rfl | rfl | rfl | rfl
    · exact high_grows _ (high_remains x hor) hn hidem
    · exact medium_grows _ (medium_remains x hor) hn hidem
    · exact low_grows _ (low_remains x hor) hn hidem
    · exact exactIn_grows _ (exactIn_remains x hor) hn hidem
    · exact exactOut_grows _ (exactOut_remains x hor) hn hidem
  · intro h
    have h1 := h srcHigh (by simp [enumSources])
    have h2 := h srcMedium (by simp [enumSources])
    have h3 := h srcLow (by simp [enumSources])
    have h4 := h srcExactIn (by simp [enumSources])
    have h5 := h srcExactOut (by simp [enumSources])
    exact normalize_eq_self _ (high_absent x h1.1 h1.2) (medium_absent x h2.1 h2.2)
      (low_absent x h3.1 h3.2) (exactIn_absent x h4.1 h4.2) (exactOut_absent x h5.1 h5.2)
      (null_absent x)

/-- C1, witness: the amended statement gives idempotence at
`{"confidenceLevel":"high","swapMode":"ExactIn","a":null}`. -/
theorem C1_idempotent_witness :
    (∀ p ∈ enumSources,
        ¬ p ++ p.tail <:+:
            bytes "\x7b\"confidenceLevel\":\"high\",\"swapMode\":\"ExactIn\",\"a\":null\x7d" ∧
          ¬ srcNull ++ p.tail <:+:
            bytes "\x7b\"confidenceLevel\":\"high\",\"swapMode\":\"ExactIn\",\"a\":null\x7d") ∧
      normalizeEnumValues (normalizeEnumValues
          (bytes "\x7b\"confidenceLevel\":\"high\",\"swapMode\":\"ExactIn\",\"a\":null\x7d"))
        = normalizeEnumValues
          (bytes "\x7b\"confidenceLevel\":\"high\",\"swapMode\":\"ExactIn\",\"a\":null\x7d") :=
  ⟨by decide, (C1_idempotent_iff_separated _).mpr (by decide)⟩

/-- C2, counterexample: the input `"confidenceLevel":"high"confidenceLevel":"high"` contains the
source text twice, the occurrences sharing a quote; only the first is rewritten and the output
`"confidenceLevel":"CONFIDENCE_LEVEL_HIGH"confidenceLevel":"high"` still contains the source
text. On `"confidenceLevel":"high":nullconfidenceLevel":"high"` the last pass completes a new
occurrence. -/
theorem C2_source_remains :
    srcHigh <:+: bytes "\"confidenceLevel\":\"high\"confidenceLevel\":\"high\"" ∧
      normalizeEnumValues (bytes "\"confidenceLevel\":\"high\"confidenceLevel\":\"high\"")
        = bytes "\"confidenceLevel\":\"CONFIDENCE_LEVEL_HIGH\"confidenceLevel\":\"high\"" ∧
      srcHigh <:+:
        normalizeEnumValues (bytes "\"confidenceLevel\":\"high\"confidenceLevel\":\"high\"") ∧
      srcHigh <:+: bytes "\"confidenceLevel\":\"high\":nullconfidenceLevel\":\"high\"" ∧
      srcHigh <:+: normalizeEnumValues
        (bytes "\"confidenceLevel\":\"high\":nullconfidenceLevel\":\"high\"") := by
  decide

/-- C2, amended: for every input, the output of `normalizeEnumValues` contains no occurrence of
`"confidenceLevel":"high"` exactly when the input contains neither
`"confidenceLevel":"high"confidenceLevel":"high"` nor `:nullconfidenceLevel":"high"`; in
particular the source text is gone from the output of every input that contains it without
containing either of these two. -/
theorem C2_source_absent_iff_separated (x : List Byte) :
    ¬ bytes "\"confidenceLevel\":\"high\"" <:+: normalizeEnumValues x ↔
      (¬ bytes "\"confidenceLevel\":\"high\"confidenceLevel\":\"high\"" <:+: x ∧
        ¬ bytes ":nullconfidenceLevel\":\"high\"" <:+: x) := by
  have e1 : bytes "\"confidenceLevel\":\"high\"confidenceLevel\":\"high\""
      = srcHigh ++ srcHigh.tail := by decide
  have e2 : bytes ":nullconfidenceLevel\":\"high\"" = srcNull ++ srcHigh.tail := by decide
  rw [e1, e2]
  constructor
  · intro h
    exact ⟨fun hZ => h (high_remains x (Or.inl hZ)), fun hN => h (high_remains x (Or.inr hN))⟩
  · intro h
    exact high_absent x h.1 h.2

/-- C2, witness: `{"confidenceLevel":"high"}` contains the source text and neither of the two
excluded texts, and its output contains no occurrence of the source text. -/
theorem C2_source_absent_witness :
    bytes "\"confidenceLevel\":\"high\"" <:+: bytes "\x7b\"confidenceLevel\":\"high\"\x7d" ∧
      ¬ bytes "\"confidenceLevel\":\"high\"" <:+:
        normalizeEnumValues (bytes "\x7b\"confidenceLevel\":\"high\"\x7d") :=
  ⟨by decide, (C2_source_absent_iff_separated _).mpr ⟨by decide, by decide⟩⟩

/-- C3: for every input and each of the five enum rewrites, if the input contains the source
text then the output of `normalizeEnumValues` contains the target text; and on
`{"swapMode":"ExactIn"}` the output is exactly `{"swapMode":"SWAP_MODE_EXACTIN"}`. -/
theorem C3_target_present (x : List Byte) :
    (bytes "\"confidenceLevel\":\"high\"" <:+: x →
      bytes "\"confidenceLevel\":\"CONFIDENCE_LEVEL_HIGH\"" <:+: normalizeEnumValues x) ∧
    (bytes "\"confidenceLevel\":\"medium\"" <:+: x →
      bytes "\"confidenceLevel\":\"CONFIDENCE_LEVEL_MEDIUM\"" <:+: normalizeEnumValues x) ∧
    (bytes "\"confidenceLevel\":\"low\"" <:+: x →
      bytes "\"confidenceLevel\":\"CONFIDENCE_LEVEL_LOW\"" <:+: normalizeEnumValues x) ∧
    (bytes "\"swapMode\":\"ExactIn\"" <:+: x →
      bytes "\"swapMode\":\"SWAP_MODE_EXACTIN\"" <:+: normalizeEnumValues x) ∧
    (bytes "\"swapMode\":\"ExactOut\"" <:+: x →
      bytes "\"swapMode\":\"SWAP_MODE_EXACTOUT\"" <:+: normalizeEnumValues x) ∧
    normalizeEnumValues (bytes "\x7b\"swapMode\":\"ExactIn\"\x7d")
      = bytes "\x7b\"swapMode\":\"SWAP_MODE_EXACTIN\"\x7d" :=
  ⟨high_present x, medium_present x, low_present x, exactIn_present x, exactOut_present x,
    by decide⟩

/-- C3, witness: `{"swapMode":"ExactIn"}` contains the source text of the fourth rewrite and its
output contains the target text; likewise `{"confidenceLevel":"low"}` for the third. -/
theorem C3_target_present_witness :
    (bytes "\"swapMode\":\"ExactIn\"" <:+: bytes "\x7b\"swapMode\":\"ExactIn\"\x7d" ∧
      bytes "\"swapMode\":\"SWAP_MODE_EXACTIN\"" <:+:
        normalizeEnumValues (bytes "\x7b\"swapMode\":\"ExactIn\"\x7d")) ∧
    (bytes "\"confidenceLevel\":\"low\"" <:+: bytes "\x7b\"confidenceLevel\":\"low\"\x7d" ∧
      bytes "\"confidenceLevel\":\"CONFIDENCE_LEVEL_LOW\"" <:+:
        normalizeEnumValues (bytes "\x7b\"confidenceLevel\":\"low\"\x7d")) :=
  ⟨⟨by decide, (C3_target_present _).2.2.2.1 (by decide)⟩,
    ⟨by decide, (C3_target_present _).2.2.1 (by decide)⟩⟩

/-- C4: for every input the output of `normalizeEnumValues` contains no occurrence of `:null`;
and on `{"a":null,"b":1}` the output is exactly `{"a":"","b":1}`. -/
theorem C4_null_absent :
    (∀ x : List Byte, ¬ bytes ":null" <:+: normalizeEnumValues x) ∧
      normalizeEnumValues (bytes "\x7b\"a\":null,\"b\":1\x7d")
        = bytes "\x7b\"a\":\"\",\"b\":1\x7d" :=
  ⟨null_absent, by decide⟩

/-- C5: an input that contains none of the six targeted texts is returned unchanged. -/
theorem C5_frame (x : List Byte)
    (h1 : ¬ bytes "\"confidenceLevel\":\"high\"" <:+: x)
    (h2 : ¬ bytes "\"confidenceLevel\":\"medium\"" <:+: x)
    (h3 : ¬ bytes "\"confidenceLevel\":\"low\"" <:+: x)
    (h4 : ¬ bytes "\"swapMode\":\"ExactIn\"" <:+: x)
    (h5 : ¬ bytes "\"swapMode\":\"ExactOut\"" <:+: x)
    (h6 : ¬ bytes ":null" <:+: x) :
    normalizeEnumValues x = x :=
  normalize_eq_self x h1 h2 h3 h4 h5 h6

/-- C5, witness: `{"data":{"SOL":{"price":"150.00","type":"derivedPrice"}}}` and the
pretty-printed `{"a": null}` contain none of the six texts and are returned unchanged. -/
theorem C5_frame_witness :
    normalizeEnumValues (bytes
        "\x7b\"data\":\x7b\"SOL\":\x7b\"price\":\"150.00\",\"type\":\"derivedPrice\"\x7d\x7d\x7d")
      = bytes
        "\x7b\"data\":\x7b\"SOL\":\x7b\"price\":\"150.00\",\"type\":\"derivedPrice\"\x7d\x7d\x7d" ∧
    normalizeEnumValues (bytes "\x7b\"a\": null\x7d") = bytes "\x7b\"a\": null\x7d" :=
  ⟨C5_frame _ (by decide) (by decide) (by decide) (by decide) (by decide) (by decide),
    C5_frame _ (by decide) (by decide) (by decide) (by decide) (by decide) (by decide)⟩

/-- C6: for every status code outside 200..299 and every body, `GetPrice` returns a response
whose variant is `Empty_400`, returns no error, and performs no effect: the body is neither
decoded nor printed. -/
theorem C6_getPrice_non2xx {P : Type} (dec : List Byte → Except GoError P)
    (js : List Byte → Except GoError JsonMap) (status : Int) (body : List Byte)
    (h : status < 200 ∨ 299 < status) :
    GetPrice dec js (Exchange.received status body)
      = ⟨some ⟨some (RootGetResponse_Response.Empty_400 none)⟩, none, []⟩ :=
  getPrice_not200 dec js status body (by omega)

/-- C6, witness: status 400 with the body `{"error":"bad"}` and a decoder that would succeed. -/
theorem C6_getPrice_non2xx_witness :
    ((400 : Int) < 200 ∨ 299 < (400 : Int)) ∧
      GetPrice (fun _ => Except.ok 7) (fun _ => Except.ok [])
          (Exchange.received 400 (bytes "\x7b\"error\":\"bad\"\x7d"))
        = (⟨some ⟨some (RootGetResponse_Response.Empty_400 none)⟩, none, []⟩ :
            Call (RootGetResponse Nat)) :=
  ⟨by decide, C6_getPrice_non2xx _ _ 400 _ (by decide)⟩

/-- C7, counterexample: on status 404 `GetQuote` returns a response in which no variant is
stored, together with no error. -/
theorem C7_getQuote_empty_response :
    (GetQuote (fun _ => (Except.ok 7 : Except GoError Nat)) (fun _ => Except.ok [])
        (Exchange.received 404 [])).response = some ⟨none⟩ ∧
      (GetQuote (fun _ => (Except.ok 7 : Except GoError Nat)) (fun _ => Except.ok [])
        (Exchange.received 404 [])).err = none :=
  ⟨rfl, rfl⟩

/-- C7, amended: for every status code and body `GetQuote` returns either a response with no
error or an error with no response, never both and never neither; and when the status is 200
the response, if any, carries the decoded quote message. -/
theorem C7_getQuote_one_result {Q : Type} (dec : List Byte → Except GoError Q)
    (js : List Byte → Except GoError JsonMap) (status : Int) (body : List Byte) :
    ((∃ r, (GetQuote dec js (Exchange.received status body)).response = some r ∧
          (GetQuote dec js (Exchange.received status body)).err = none) ∨
      (∃ e, (GetQuote dec js (Exchange.received status body)).response = none ∧
          (GetQuote dec js (Exchange.received status body)).err = some e)) ∧
    ((∃ m, dec (normalizeEnumValues body) = Except.ok m ∧
          (GetQuote dec js (Exchange.received 200 body)).response
            = some ⟨some (QuoteGetResponse_Response.QuoteResponse_200 m)⟩ ∧
          (GetQuote dec js (Exchange.received 200 body)).err = none) ∨
      (∃ e, dec (normalizeEnumValues body) = Except.error e ∧
          (GetQuote dec js (Exchange.received 200 body)).response = none ∧
          (GetQuote dec js (Exchange.received 200 body)).err
            = some (GoError.wrapped "unmarshaling quote response" e))) := by
  have h200 : (∃ m, dec (normalizeEnumValues body) = Except.ok m ∧
          (GetQuote dec js (Exchange.received 200 body)).response
            = some ⟨some (QuoteGetResponse_Response.QuoteResponse_200 m)⟩ ∧
          (GetQuote dec js (Exchange.received 200 body)).err = none) ∨
      (∃ e, dec (normalizeEnumValues body) = Except.error e ∧
          (GetQuote dec js (Exchange.received 200 body)).response = none ∧
          (GetQuote dec js (Exchange.received 200 body)).err
            = some (GoError.wrapped "unmarshaling quote response" e)) := by
    cases hd : dec (normalizeEnumValues body) with
    | error e =>
      right
      refine ⟨e, rfl, ?_⟩
      rw [getQuote_decode_error dec js body e hd]
      exact ⟨rfl, rfl⟩
    | ok m =>
      left
      refine ⟨m, rfl, ?_⟩
      rw [getQuote_decode_ok dec js body m hd]
      exact ⟨rfl, rfl⟩
  refine ⟨?_, h200⟩
  by_cases hs : status = 200
  · subst hs
    rcases h200 with ⟨m, _, h1, h2⟩ | ⟨e, _, h1, h2⟩
    · exact Or.inl ⟨_, h1, h2⟩
    · exact Or.inr ⟨_, h1, h2⟩
  · rw [getQuote_not200 dec js status body hs]
    exact Or.inl ⟨_, rfl, rfl⟩

/-- C8: on status 200, if the schema decoder fails on the normalised body, then `GetPrice` and
`GetQuote` return that failure (wrapped with the stage name) and no response, whatever the
permissive re-parse of the raw body does, and the schema decoder has been invoked exactly once,
on the normalised body: the raw body is not among its inputs unless normalisation left it
unchanged. -/
theorem C8_decode_failure_returned {P Q : Type} (decP : List Byte → Except GoError P)
    (decQ : List Byte → Except GoError Q) (js : List Byte → Except GoError JsonMap)
    (body : List Byte) :
    (∀ e, decP (normalizeEnumValues body) = Except.error e →
      (GetPrice decP js (Exchange.received 200 body)).response = none ∧
      (GetPrice decP js (Exchange.received 200 body)).err
        = some (GoError.wrapped "unmarshaling price response" e) ∧
      decoderCalls (GetPrice decP js (Exchange.received 200 body)).effects
        = [normalizeEnumValues body] ∧
      (normalizeEnumValues body ≠ body →
        body ∉ decoderCalls (GetPrice decP js (Exchange.received 200 body)).effects)) ∧
    (∀ e, decQ (normalizeEnumValues body) = Except.error e →
      (GetQuote decQ js (Exchange.received 200 body)).response = none ∧
      (GetQuote decQ js (Exchange.received 200 body)).err
        = some (GoError.wrapped "unmarshaling quote response" e) ∧
      decoderCalls (GetQuote decQ js (Exchange.received 200 body)).effects
        = [normalizeEnumValues body] ∧
      (normalizeEnumValues body ≠ body →
        body ∉ decoderCalls (GetQuote decQ js (Exchange.received 200 body)).effects)) := by
  constructor
  · intro e he
    rw [getPrice_decode_error decP js body e he]
    have hc : decoderCalls
        (Event.protojsonUnmarshal (normalizeEnumValues body) :: debugRawJson js body)
        = [normalizeEnumValues body] := by
      rw [decoderCalls, decoderCalls_debugRawJson]
    refine ⟨rfl, rfl, hc, ?_⟩
    intro hne hmem
    rw [hc, List.mem_singleton] at hmem
    exact hne hmem.symm
  · intro e he
    rw [getQuote_decode_error decQ js body e he]
    have hc : decoderCalls
        (Event.protojsonUnmarshal (normalizeEnumValues body) :: debugRawJson js body)
        = [normalizeEnumValues body] := by
      rw [decoderCalls, decoderCalls_debugRawJson]
    refine ⟨rfl, rfl, hc, ?_⟩
    intro hne hmem
    rw [hc, List.mem_singleton] at hmem
    exact hne hmem.symm

/-- C8, witness: a decoder that rejects every input, a permissive parser that accepts every
input, and the body `{"a":null}`, which normalisation changes. -/
theorem C8_decode_failure_witness :
    (GetPrice (fun _ => (Except.error (GoError.failure "syntax error") : Except GoError Nat))
        (fun _ => Except.ok []) (Exchange.received 200 (bytes "\x7b\"a\":null\x7d"))).err
      = some (GoError.wrapped "unmarshaling price response" (GoError.failure "syntax error")) ∧
    decoderCalls
      (GetQuote (fun _ => (Except.error (GoError.failure "syntax error") : Except GoError Nat))
        (fun _ => Except.ok []) (Exchange.received 200 (bytes "\x7b\"a\":null\x7d"))).effects
      = [normalizeEnumValues (bytes "\x7b\"a\":null\x7d")] ∧
    bytes "\x7b\"a\":null\x7d" ∉ decoderCalls
      (GetQuote (fun _ => (Except.error (GoError.failure "syntax error") : Except GoError Nat))
        (fun _ => Except.ok []) (Exchange.received 200 (bytes "\x7b\"a\":null\x7d"))).effects :=
  ⟨((C8_decode_failure_returned
        (fun _ => (Except.error (GoError.failure "syntax error") : Except GoError Nat))
        (fun _ => (Except.error (GoError.failure "syntax error") : Except GoError Nat))
        (fun _ => Except.ok []) (bytes "\x7b\"a\":null\x7d")).1 _ rfl).2.1,
    ((C8_decode_failure_returned
        (fun _ => (Except.error (GoError.failure "syntax error") : Except GoError Nat))
        (fun _ => (Except.error (GoError.failure "syntax error") : Except GoError Nat))
        (fun _ => Except.ok []) (bytes "\x7b\"a\":null\x7d")).2 _ rfl).2.2.1,
    ((C8_decode_failure_returned
        (fun _ => (Except.error (GoError.failure "syntax error") : Except GoError Nat))
        (fun _ => (Except.error (GoError.failure "syntax error") : Except GoError Nat))
        (fun _ => Except.ok []) (bytes "\x7b\"a\":null\x7d")).2 _ rfl).2.2.2 (by decide)⟩

/-- C9: for every status code in 201..299 and every body, `GetPrice` returns the `Empty_400`
variant with no error and performs no decode; and whenever `GetPrice` returns the success
variant, the status is exactly 200 and the schema decoder accepted the normalised body with
that message. -/
theorem C9_getPrice_success_only_200 {P : Type} (dec : List Byte → Except GoError P)
    (js : List Byte → Except GoError JsonMap) (status : Int) (body : List Byte) :
    (201 ≤ status → status ≤ 299 →
      GetPrice dec js (Exchange.received status body)
        = ⟨some ⟨some (RootGetResponse_Response.Empty_400 none)⟩, none, []⟩) ∧
    (∀ m, (GetPrice dec js (Exchange.received status body)).response
        = some ⟨some (RootGetResponse_Response.PriceResponse_200 m)⟩ →
      status = 200 ∧ dec (normalizeEnumValues body) = Except.ok m) := by
  constructor
  · intro h1 _
    exact getPrice_not200 dec js status body (by omega)
  · intro m hm
    by_cases hs : status = 200
    · subst hs
      refine ⟨rfl, ?_⟩
      cases hd : dec (normalizeEnumValues body) with
      | error e =>
        rw [getPrice_decode_error dec js body e hd] at hm
        cases hm
      | ok m2 =>
        rw [getPrice_decode_ok dec js body m2 hd] at hm
        cases hm
        rfl
    · rw [getPrice_not200 dec js status body hs] at hm
      cases hm

/-- C9, witness: status 204 gives the `Empty_400` variant although the decoder would succeed,
and the success variant obtained on status 200 comes from the decoder. -/
theorem C9_getPrice_witness :
    GetPrice (fun _ => Except.ok 7) (fun _ => Except.ok []) (Exchange.received 204 [])
        = (⟨some ⟨some (RootGetResponse_Response.Empty_400 none)⟩, none, []⟩ :
            Call (RootGetResponse Nat)) ∧
      ((200 : Int) = 200 ∧
        (fun _ => Except.ok 7 : List Byte → Except GoError Nat) (normalizeEnumValues [])
          = Except.ok 7) :=
  ⟨(C9_getPrice_success_only_200 _ _ 204 []).1 (by decide) (by decide),
    (C9_getPrice_success_only_200 (fun _ => Except.ok 7) (fun _ => Except.ok []) 200 []).2 7
      rfl⟩

/-- C10: for every status code and every body, `GetTokenInfo` returns the empty response
message, in which no variant is stored, and no error; the status and the body reach only the
effect trace. -/
theorem C10_getTokenInfo_constant {V : Type} (js : List Byte → Except GoError JsonMap)
    (status : Int) (body : List Byte) :
    (GetTokenInfo js (Exchange.received status body)).response
        = some (⟨none⟩ : TokenAddressGetResponse V) ∧
      (GetTokenInfo js (Exchange.received status body) :
        Call (TokenAddressGetResponse V)).err = none :=
  ⟨rfl, rfl⟩

end JupiterGo
